import Mathlib

/-!
Verification of the infi-discord-bot command dispatch and stateful-interaction
layer, shallowly embedded in Lean 4.

Python strings are modelled as `List Char`; Python slicing `s[:n]` / `s[n:]`
becomes `List.take` / `List.drop`.  Machine integers are `Nat`/`Int` (Python
ints are unbounded, so no overflow modelling is needed).  Fallible operations
are modelled with `Option`/`Except`.
-/

namespace InfiBot

/-! ### Chunking algorithm (`split_response`, src/bot/cogs/gemini.py) -/

/-- The ASCII whitespace characters stripped by Python `str.strip()` /
`str.rstrip()` / `str.lstrip()` (the inputs in this development are ASCII;
the further Unicode whitespace code points Python would also strip play no
role here). -/
def isPySpace (c : Char) : Bool :=
  c = ' ' || c = '\t' || c = '\n' || c = '\r' || c = '\x0b' || c = '\x0c'

/-- Python `str.lstrip()`: drop leading whitespace. -/
def lstrip (s : List Char) : List Char :=
  s.dropWhile isPySpace

/-- Python `str.rstrip()`: drop trailing whitespace. -/
def rstrip (s : List Char) : List Char :=
  (s.reverse.dropWhile isPySpace).reverse

/-- Python `s.rfind(sub)`: index of the last occurrence of `sub` in `s`,
`-1` when `sub` does not occur.  The filtered index list is ascending, so
its last element is the greatest matching index. -/
def rfind (s sub : List Char) : Int :=
  match ((List.range (s.length + 1)).filter (fun i => sub.isPrefixOf (s.drop i))).getLast? with
  | some i => (i : Int)
  | none => -1

/-- `MAX_MESSAGE_LENGTH` (src/bot/cogs/gemini.py line 13). -/
def MAX_MESSAGE_LENGTH : Nat := 2000

/-- The split-point selection of one loop iteration of `split_response`
(src/bot/cogs/gemini.py lines 40-52), for the window `chunk =
remaining[:max_length]`: try the last paragraph break `"\n\n"`, then the last
newline, then the last space, each accepted only when found (`≠ -1`) at or
past `max_length // 2`; otherwise hard-cut at `max_length`. -/
def splitPos (chunk : List Char) (max_length : Nat) : Nat :=
  let mid : Int := ((max_length / 2 : Nat) : Int)
  let p1 : Int := rfind chunk ['\n', '\n']
  let p2 : Int := if p1 = -1 ∨ p1 < mid then rfind chunk ['\n'] else p1
  let p3 : Int := if p2 = -1 ∨ p2 < mid then rfind chunk [' '] else p2
  if p3 = -1 ∨ p3 < mid then max_length else p3.toNat

/-- The `while remaining:` loop of `split_response` (src/bot/cogs/gemini.py
lines 34-57), with explicit fuel: `none` models non-termination of the
Python loop (the fuel used by `split_response` below is proved sufficient
whenever `max_length ≥ 1`).  Each iteration emits
`remaining[:split_pos].rstrip()` and continues on
`remaining[split_pos:].lstrip()`. -/
def splitGo (fuel : Nat) (remaining : List Char) (max_length : Nat) :
    Option (List (List Char)) :=
  match fuel, remaining with
  | _, [] => some []
  | 0, _ :: _ => none
  | fuel + 1, c :: rest =>
    let r := c :: rest
    if r.length ≤ max_length then some [r]
    else
      let split_pos := splitPos (r.take max_length) max_length
      (splitGo fuel (lstrip (r.drop split_pos)) max_length).map
        (fun tail => rstrip (r.take split_pos) :: tail)

/-- `split_response(text, max_length)` (src/bot/cogs/gemini.py lines 16-57).
Returns `some chunks`; `none` would mean the loop ran out of fuel, which is
refuted below for every `max_length ≥ 1`. -/
def split_response (text : List Char) (max_length : Nat) :
    Option (List (List Char)) :=
  if text.length ≤ max_length then some [text]
  else splitGo text.length text max_length

example : split_response [' ', ' ', ' ', ' ', 'a', 'b', 'c', 'd'] 4 =
    some [[], ['a', 'b', 'c', 'd']] := by decide

example : split_response ['a', 'b', 'c'] 5 = some [['a', 'b', 'c']] := by decide

example : split_response ['a', 'b', 'c'] 1 =
    some [['a'], ['b'], ['c']] := by decide

example : split_response ['a', 'b', ' ', 'c', 'd'] 4 =
    some [['a', 'b'], ['c', 'd']] := by decide

/-! ### Lemmas about `rfind` -/

theorem rfind_eq_or (s sub : List Char) :
    rfind s sub = -1 ∨
      ∃ i : Nat, rfind s sub = (i : Int) ∧ sub.isPrefixOf (s.drop i) = true ∧
        i ≤ s.length := by
  unfold rfind
  cases h : ((List.range (s.length + 1)).filter
      (fun i => sub.isPrefixOf (s.drop i))).getLast? with
  | none => exact Or.inl rfl
  | some i =>
    refine Or.inr ⟨i, rfl, ?_, ?_⟩
    · have hmem := List.mem_of_getLast?_eq_some h
      exact (List.mem_filter.mp hmem).2
    · have hmem := List.mem_of_getLast?_eq_some h
      have := List.mem_range.mp (List.mem_filter.mp hmem).1
      omega

theorem rfind_eq_neg_one {s sub : List Char}
    (h : ∀ i, sub.isPrefixOf (s.drop i) = false) : rfind s sub = -1 := by
  unfold rfind
  have hfil : ((List.range (s.length + 1)).filter
      (fun i => sub.isPrefixOf (s.drop i))) = [] := by
    apply List.filter_eq_nil_iff.mpr
    intro a _
    simp [h a]
  rw [hfil]
  rfl

theorem rfind_zero_isPrefixOf {s sub : List Char} (h : rfind s sub = 0) :
    sub.isPrefixOf s = true := by
  rcases rfind_eq_or s sub with h1 | ⟨i, hi, hpre, _⟩
  · rw [h1] at h; exact absurd h (by decide)
  · rw [hi] at h
    have : i = 0 := by exact_mod_cast h
    rw [this] at hpre
    simpa using hpre

theorem rfind_toNat_le {s sub : List Char} (h : ¬ rfind s sub = -1) :
    (rfind s sub).toNat ≤ s.length := by
  rcases rfind_eq_or s sub with h1 | ⟨i, hi, _, hle⟩
  · exact absurd h1 h
  · rw [hi]; simpa using hle

theorem isPrefixOf_false_of_head {c : Char} {cs l : List Char} (h : c ∉ l) :
    (c :: cs).isPrefixOf l = false := by
  cases l with
  | nil => rfl
  | cons b bs =>
    have hne : c ≠ b := fun hcb => h (hcb ▸ List.mem_cons_self b bs)
    simp [List.isPrefixOf, hne]

theorem single_isPrefixOf {c : Char} {l : List Char}
    (h : [c].isPrefixOf l = true) : ∃ t, l = c :: t := by
  cases l with
  | nil => exact absurd h (by simp)
  | cons b bs =>
    have : c = b := by simpa [List.isPrefixOf] using h
    exact ⟨bs, by rw [this]⟩

theorem double_isPrefixOf {c d : Char} {l : List Char}
    (h : [c, d].isPrefixOf l = true) : ∃ t, l = c :: d :: t := by
  cases l with
  | nil => exact absurd h (by simp)
  | cons b bs =>
    cases bs with
    | nil => exact absurd h (by simp [List.isPrefixOf])
    | cons b2 bs2 =>
      have h2 : c = b ∧ d = b2 := by simpa [List.isPrefixOf] using h
      exact ⟨bs2, by rw [h2.1, h2.2]⟩

theorem rfind_no_occurrence {s : List Char} {c : Char} {cs : List Char}
    (hmem : c ∉ s) : rfind s (c :: cs) = -1 := by
  apply rfind_eq_neg_one
  intro i
  exact isPrefixOf_false_of_head (fun hc => hmem (List.drop_subset i s hc))

/-! ### Lemmas about `splitPos` -/

/-- Either the hard cut is taken, or the split position is an accepted
occurrence of one of the three boundary substrings, at or past the
midpoint. -/
theorem splitPos_cases (chunk : List Char) (m : Nat) :
    splitPos chunk m = m ∨
      ∃ sub ∈ [['\n', '\n'], ['\n'], [' ']],
        ¬ rfind chunk sub = -1 ∧
        ((m / 2 : Nat) : Int) ≤ rfind chunk sub ∧
        splitPos chunk m = (rfind chunk sub).toNat := by
  simp only [splitPos]
  by_cases c1 : rfind chunk ['\n', '\n'] = -1 ∨
      rfind chunk ['\n', '\n'] < ((m / 2 : Nat) : Int)
  · simp only [if_pos c1]
    by_cases c2 : rfind chunk ['\n'] = -1 ∨
        rfind chunk ['\n'] < ((m / 2 : Nat) : Int)
    · simp only [if_pos c2]
      by_cases c3 : rfind chunk [' '] = -1 ∨
          rfind chunk [' '] < ((m / 2 : Nat) : Int)
      · simp only [if_pos c3]
        exact Or.inl (by trivial)
      · simp only [if_neg c3]
        exact Or.inr ⟨[' '], by simp, (not_or.mp c3).1,
          le_of_not_lt (not_or.mp c3).2, rfl⟩
    · simp only [if_neg c2]
      exact Or.inr ⟨['\n'], by simp, (not_or.mp c2).1,
        le_of_not_lt (not_or.mp c2).2, rfl⟩
  · simp only [if_neg c1]
    exact Or.inr ⟨['\n', '\n'], by simp, (not_or.mp c1).1,
      le_of_not_lt (not_or.mp c1).2, rfl⟩

theorem splitPos_le {chunk : List Char} {m : Nat} (h : chunk.length ≤ m) :
    splitPos chunk m ≤ m := by
  rcases splitPos_cases chunk m with h1 | ⟨sub, -, hne, -, heq⟩
  · exact le_of_eq h1
  · rw [heq]
    exact le_trans (rfind_toNat_le hne) h

theorem splitPos_zero_head {chunk : List Char} {m : Nat} (hm : 1 ≤ m)
    (h : splitPos chunk m = 0) :
    ∃ c t, chunk = c :: t ∧ isPySpace c = true := by
  rcases splitPos_cases chunk m with h1 | ⟨sub, hsub, hne, hge, heq⟩
  · omega
  · rw [heq] at h
    have hmid : (0 : Int) ≤ ((m / 2 : Nat) : Int) := by positivity
    have hzero : rfind chunk sub = 0 := by omega
    have hpre := rfind_zero_isPrefixOf hzero
    simp only [List.mem_cons, List.mem_singleton] at hsub
    rcases hsub with h2 | h2 | h2 | h2
    · rcases double_isPrefixOf (h2 ▸ hpre) with ⟨t, ht⟩
      exact ⟨'\n', '\n' :: t, ht, by decide⟩
    · rcases single_isPrefixOf (h2 ▸ hpre) with ⟨t, ht⟩
      exact ⟨'\n', t, ht, by decide⟩
    · rcases single_isPrefixOf (h2 ▸ hpre) with ⟨t, ht⟩
      exact ⟨' ', t, ht, by decide⟩
    · exact absurd h2 (by simp)

/-! ### Lemmas about the loop of `split_response` -/

theorem length_lstrip_le (s : List Char) : (lstrip s).length ≤ s.length :=
  (List.dropWhile_sublist (l := s) isPySpace).length_le

theorem length_rstrip_le (s : List Char) : (rstrip s).length ≤ s.length := by
  unfold rstrip
  calc ((s.reverse.dropWhile isPySpace).reverse).length
      = (s.reverse.dropWhile isPySpace).length := List.length_reverse _
    _ ≤ s.reverse.length := (List.dropWhile_sublist isPySpace).length_le
    _ = s.length := List.length_reverse s

/-- Each loop iteration of `split_response` strictly consumes at least one
character of the remaining text: either the split position is positive, or
the window begins with whitespace which `lstrip` removes. -/
theorem consume_lt {remaining : List Char} {m : Nat} (hm : 1 ≤ m)
    (hlen : m < remaining.length) :
    (lstrip (remaining.drop (splitPos (remaining.take m) m))).length <
      remaining.length := by
  rcases Nat.eq_zero_or_pos (splitPos (remaining.take m) m) with h0 | hpos
  · rcases splitPos_zero_head hm h0 with ⟨c, t, htake, hspace⟩
    rcases remaining with - | ⟨a, rest⟩
    · simp at hlen
    · have ha : a = c := by
        cases m with
        | zero => omega
        | succ k =>
          rw [List.take_succ_cons] at htake
          exact (List.cons_eq_cons.mp htake).1
      rw [h0, List.drop_zero, ha]
      have : lstrip (c :: rest) = lstrip rest := by
        simp [lstrip, List.dropWhile_cons_of_pos, hspace]
      rw [this]
      have := length_lstrip_le rest
      simp only [List.length_cons]
      omega
  · have hdrop : (remaining.drop (splitPos (remaining.take m) m)).length <
        remaining.length := by
      rw [List.length_drop]
      omega
    exact lt_of_le_of_lt (length_lstrip_le _) hdrop

/-- With `max_length ≥ 1`, fuel equal to the length of the remaining text
is enough: the loop never runs out (this is the termination argument). -/
theorem splitGo_isSome {m : Nat} (hm : 1 ≤ m) :
    ∀ fuel remaining, remaining.length ≤ fuel →
      (splitGo fuel remaining m).isSome = true := by
  intro fuel
  induction fuel with
  | zero =>
    intro remaining hlen
    have : remaining = [] := List.eq_nil_of_length_eq_zero (by omega)
    subst this
    rfl
  | succ f ih =>
    intro remaining hlen
    rcases remaining with - | ⟨c, rest⟩
    · rfl
    · by_cases hshort : (c :: rest).length ≤ m
      · simp only [splitGo]
        rw [if_pos hshort]
        rfl
      · have hlong : m < (c :: rest).length := Nat.lt_of_not_le hshort
        have hrec := ih (lstrip ((c :: rest).drop
            (splitPos ((c :: rest).take m) m)))
          (by have := consume_lt hm hlong; omega)
        simp only [splitGo, if_neg hshort]
        rcases Option.isSome_iff_exists.mp hrec with ⟨tail, htail⟩
        rw [htail]
        rfl

/-- Every chunk emitted by the loop has length at most `max_length`. -/
theorem splitGo_chunks_le {m : Nat} :
    ∀ fuel remaining l, splitGo fuel remaining m = some l →
      ∀ c ∈ l, c.length ≤ m := by
  intro fuel
  induction fuel with
  | zero =>
    intro remaining l hsome
    rcases remaining with - | ⟨c, rest⟩
    · simp only [splitGo] at hsome
      cases hsome
      intro c hc
      simp at hc
    · simp only [splitGo] at hsome
      cases hsome
  | succ f ih =>
    intro remaining l hsome
    rcases remaining with - | ⟨c, rest⟩
    · simp only [splitGo] at hsome
      cases hsome
      intro c hc
      simp at hc
    · by_cases hshort : (c :: rest).length ≤ m
      · simp only [splitGo, if_pos hshort] at hsome
        cases hsome
        intro d hd
        rcases List.mem_singleton.mp hd with rfl
        exact hshort
      · simp only [splitGo, if_neg hshort] at hsome
        rcases Option.map_eq_some'.mp hsome with ⟨tail, htail, rfl⟩
        intro d hd
        rcases List.mem_cons.mp hd with rfl | hd2
        · calc (rstrip ((c :: rest).take
                (splitPos ((c :: rest).take m) m))).length
              ≤ ((c :: rest).take (splitPos ((c :: rest).take m) m)).length :=
                length_rstrip_le _
            _ ≤ splitPos ((c :: rest).take m) m := by
                rw [List.length_take]; omega
            _ ≤ m := splitPos_le (by rw [List.length_take]; omega)
        · exact ih _ tail htail d hd2

/-- The loop result is non-empty whenever the remaining text is. -/
theorem splitGo_ne_nil {m : Nat} {fuel : Nat} {remaining : List Char}
    {l : List (List Char)} (hsome : splitGo fuel remaining m = some l)
    (hne : remaining ≠ []) : l ≠ [] := by
  rcases remaining with - | ⟨c, rest⟩
  · exact absurd rfl hne
  · rcases fuel with - | f
    · simp only [splitGo] at hsome
      cases hsome
    · by_cases hshort : (c :: rest).length ≤ m
      · simp only [splitGo, if_pos hshort] at hsome
        cases hsome
        simp
      · simp only [splitGo, if_neg hshort] at hsome
        rcases Option.map_eq_some'.mp hsome with ⟨tail, -, rfl⟩
        simp

/-- Unfolding the loop once on a non-empty remaining text longer than the
window. -/
theorem splitGo_step {fuel : Nat} {r : List Char} {m : Nat} (hne : r ≠ [])
    (hfuel : r.length ≤ fuel) (hlong : m < r.length) :
    splitGo fuel r m =
      (splitGo (fuel - 1) (lstrip (r.drop (splitPos (r.take m) m))) m).map
        (fun tail => rstrip (r.take (splitPos (r.take m) m)) :: tail) := by
  rcases r with - | ⟨c, rest⟩
  · exact absurd rfl hne
  · rcases fuel with - | f
    · simp at hfuel
    · simp only [splitGo, if_neg (Nat.not_le_of_lt hlong)]
      rfl

/-- The loop on a non-empty remaining text that fits in the window emits it
as the final chunk. -/
theorem splitGo_short {fuel : Nat} {r : List Char} {m : Nat} (hne : r ≠ [])
    (hfuel : 1 ≤ fuel) (hshort : r.length ≤ m) :
    splitGo fuel r m = some [r] := by
  rcases r with - | ⟨c, rest⟩
  · exact absurd rfl hne
  · rcases fuel with - | f
    · omega
    · simp only [splitGo]
      rw [if_pos hshort]

theorem dropWhile_isPySpace_replicate_a (k : Nat) :
    (List.replicate k 'a').dropWhile isPySpace = List.replicate k 'a' := by
  cases k with
  | zero => rfl
  | succ n =>
    rw [List.replicate_succ]
    exact List.dropWhile_cons_of_neg (by decide)

theorem rstrip_replicate_a (k : Nat) :
    rstrip (List.replicate k 'a') = List.replicate k 'a' := by
  unfold rstrip
  rw [List.reverse_replicate, dropWhile_isPySpace_replicate_a,
    List.reverse_replicate]

theorem lstrip_replicate_a (k : Nat) :
    lstrip (List.replicate k 'a') = List.replicate k 'a' :=
  dropWhile_isPySpace_replicate_a k

theorem splitPos_replicate_a (k m : Nat) :
    splitPos (List.replicate k 'a') m = m := by
  have hnl : ('\n' : Char) ∉ List.replicate k 'a' := by
    intro h
    exact absurd (List.eq_of_mem_replicate h) (by decide)
  have hsp : (' ' : Char) ∉ List.replicate k 'a' := by
    intro h
    exact absurd (List.eq_of_mem_replicate h) (by decide)
  have h1 : rfind (List.replicate k 'a') ['\n', '\n'] = -1 :=
    rfind_no_occurrence hnl
  have h2 : rfind (List.replicate k 'a') ['\n'] = -1 :=
    rfind_no_occurrence hnl
  have h3 : rfind (List.replicate k 'a') [' '] = -1 :=
    rfind_no_occurrence hsp
  simp only [splitPos, h1, h2, h3]
  simp

/-- A 3000-character input with no whitespace, `maxLength = 2000`: the first
chunk is a hard cut of exactly 2000 characters, the second the remaining
1000. -/
theorem split_response_hard_cut_3000 :
    split_response (List.replicate 3000 'a') 2000 =
      some [List.replicate 2000 'a', List.replicate 1000 'a'] := by
  have hlen : (List.replicate 3000 'a').length = 3000 :=
    List.length_replicate 3000 'a'
  have htake : (List.replicate 3000 'a').take 2000 = List.replicate 2000 'a' := by
    rw [List.take_replicate]
    norm_num
  have hdrop : (List.replicate 3000 'a').drop 2000 = List.replicate 1000 'a' := by
    rw [List.drop_replicate]
  have hpos : splitPos ((List.replicate 3000 'a').take 2000) 2000 = 2000 := by
    rw [htake, splitPos_replicate_a]
  have hne : (List.replicate 3000 'a') ≠ [] :=
    List.ne_nil_of_length_pos (by rw [hlen]; norm_num)
  unfold split_response
  rw [hlen, if_neg (by norm_num)]
  rw [splitGo_step hne (by rw [hlen]) (by rw [hlen]; norm_num)]
  rw [hpos, hdrop, lstrip_replicate_a, htake, rstrip_replicate_a]
  rw [splitGo_short
    (List.ne_nil_of_length_pos (by rw [List.length_replicate]; norm_num))
    (by norm_num) (by rw [List.length_replicate]; norm_num)]
  rfl

/-! ### Claim theorems for the chunking algorithm -/

/-- C1, counterexample to the claim as stated: on the empty input with
`maxLength = 1` the function returns `[""]`, a NON-empty sequence, so "the
returned sequence is non-empty iff the input is non-empty" is false (the
right-to-left direction holds, the left-to-right direction does not). -/
theorem split_response_nonempty_iff_refuted :
    split_response ([] : List Char) 1 = some [[]] ∧
      ¬ ((([[]] : List (List Char)) ≠ []) ↔ (([] : List Char) ≠ [])) :=
  ⟨rfl, by decide⟩

/-- C1 (amended): for every input text and every `maxLength ≥ 1`, the
chunking terminates (`some`), every returned chunk has length at most
`maxLength`, the returned sequence is ALWAYS non-empty (for the empty input
it is the one-element sequence containing the empty string), and if the
input's length is at most `maxLength` the result is exactly the
single-element sequence containing the input unchanged. -/
theorem split_response_spec (text : List Char) (m : Nat) (hm : 1 ≤ m) :
    ∃ l, split_response text m = some l ∧ l ≠ [] ∧
      (∀ c ∈ l, c.length ≤ m) ∧ (text.length ≤ m → l = [text]) := by
  by_cases hshort : text.length ≤ m
  · refine ⟨[text], ?_, by simp, ?_, fun _ => rfl⟩
    · unfold split_response
      rw [if_pos hshort]
    · intro c hc
      rcases List.mem_singleton.mp hc with rfl
      exact hshort
  · have hsome := splitGo_isSome hm text.length text (le_refl _)
    rcases Option.isSome_iff_exists.mp hsome with ⟨l, hl⟩
    have hne : text ≠ [] := by
      intro h
      rw [h] at hshort
      exact hshort (by simp)
    refine ⟨l, ?_, splitGo_ne_nil hl hne,
      splitGo_chunks_le text.length text l hl, fun h => absurd h hshort⟩
    unfold split_response
    rw [if_neg hshort]
    exact hl

theorem split_response_spec_witness :
    ∃ l, split_response ['h', 'i'] 5 = some l ∧ l ≠ [] ∧
      (∀ c ∈ l, c.length ≤ 5) ∧ ((['h', 'i'] : List Char).length ≤ 5 → l = [['h', 'i']]) :=
  split_response_spec ['h', 'i'] 5 (by decide)

/-- C5: each iteration picks its split point inside the `maxLength`-window
by trying, in order, the last `"\n\n"`, the last `"\n"`, then the last
`" "`, accepting a candidate only when it was found at or past
`maxLength / 2`, and hard-cuts at exactly `maxLength` when none qualifies;
the accepted position is a genuine boundary occurrence at or past the
midpoint.  In particular a 3000-character whitespace-free input with
`maxLength = 2000` yields chunks of exactly 2000 and 1000 characters. -/
theorem splitPos_strategy_spec (chunk : List Char) (m : Nat) :
    (¬ (rfind chunk ['\n', '\n'] = -1 ∨
          rfind chunk ['\n', '\n'] < ((m / 2 : Nat) : Int)) →
        splitPos chunk m = (rfind chunk ['\n', '\n']).toNat) ∧
    ((rfind chunk ['\n', '\n'] = -1 ∨
          rfind chunk ['\n', '\n'] < ((m / 2 : Nat) : Int)) →
      ¬ (rfind chunk ['\n'] = -1 ∨ rfind chunk ['\n'] < ((m / 2 : Nat) : Int)) →
        splitPos chunk m = (rfind chunk ['\n']).toNat) ∧
    ((rfind chunk ['\n', '\n'] = -1 ∨
          rfind chunk ['\n', '\n'] < ((m / 2 : Nat) : Int)) →
      (rfind chunk ['\n'] = -1 ∨ rfind chunk ['\n'] < ((m / 2 : Nat) : Int)) →
      ¬ (rfind chunk [' '] = -1 ∨ rfind chunk [' '] < ((m / 2 : Nat) : Int)) →
        splitPos chunk m = (rfind chunk [' ']).toNat) ∧
    ((rfind chunk ['\n', '\n'] = -1 ∨
          rfind chunk ['\n', '\n'] < ((m / 2 : Nat) : Int)) →
      (rfind chunk ['\n'] = -1 ∨ rfind chunk ['\n'] < ((m / 2 : Nat) : Int)) →
      (rfind chunk [' '] = -1 ∨ rfind chunk [' '] < ((m / 2 : Nat) : Int)) →
        splitPos chunk m = m) ∧
    (splitPos chunk m = m ∨
      (m / 2 ≤ splitPos chunk m ∧
        (['\n', '\n'].isPrefixOf (chunk.drop (splitPos chunk m)) = true ∨
         ['\n'].isPrefixOf (chunk.drop (splitPos chunk m)) = true ∨
         [' '].isPrefixOf (chunk.drop (splitPos chunk m)) = true))) ∧
    split_response (List.replicate 3000 'a') 2000 =
      some [List.replicate 2000 'a', List.replicate 1000 'a'] := by
  refine ⟨?_, ?_, ?_, ?_, ?_, split_response_hard_cut_3000⟩
  · intro h1
    simp only [splitPos, if_neg h1]
  · intro h1 h2
    simp only [splitPos, if_pos h1, if_neg h2]
  · intro h1 h2 h3
    simp only [splitPos, if_pos h1, if_pos h2, if_neg h3]
  · intro h1 h2 h3
    simp only [splitPos, if_pos h1, if_pos h2, if_pos h3]
  · rcases splitPos_cases chunk m with h | ⟨sub, hsub, hne, hge, heq⟩
    · exact Or.inl h
    · right
      rcases rfind_eq_or chunk sub with hbad | ⟨i, hi, hpre, -⟩
      · exact absurd hbad hne
      · have htn : splitPos chunk m = i := by
          rw [heq, hi]
          simp
        have hmid : m / 2 ≤ i := by
          rw [hi] at hge
          exact_mod_cast hge
        constructor
        · omega
        · rw [htn]
          simp only [List.mem_cons, List.mem_singleton] at hsub
          rcases hsub with h2 | h2 | h2 | h2
          · exact Or.inl (h2 ▸ hpre)
          · exact Or.inr (Or.inl (h2 ▸ hpre))
          · exact Or.inr (Or.inr (h2 ▸ hpre))
          · exact absurd h2 (by simp)

theorem splitPos_strategy_spec_witness :
    splitPos ['a'] 1 = 1 ∧
      split_response (List.replicate 3000 'a') 2000 =
        some [List.replicate 2000 'a', List.replicate 1000 'a'] :=
  ⟨(splitPos_strategy_spec ['a'] 1).2.2.2.1 (by decide) (by decide) (by decide),
   (splitPos_strategy_spec ['a'] 1).2.2.2.2.2⟩

/-- C9: for every `maxLength ≥ 1` the chunking loop terminates on every
input (the fuel `text.length` never runs out, so the embedded loop yields
`some`), because each iteration strictly consumes at least one character of
the remaining text — including the case where the chosen split position
would otherwise be 0, where the leading whitespace stripped by `lstrip`
provides the progress. -/
theorem split_response_terminating (text : List Char) (m : Nat) (hm : 1 ≤ m) :
    (split_response text m).isSome = true ∧
      ∀ remaining : List Char, m < remaining.length →
        (lstrip (remaining.drop (splitPos (remaining.take m) m))).length <
          remaining.length := by
  constructor
  · unfold split_response
    by_cases hshort : text.length ≤ m
    · rw [if_pos hshort]
      rfl
    · rw [if_neg hshort]
      exact splitGo_isSome hm text.length text (le_refl _)
  · intro r hr
    exact consume_lt hm hr

theorem split_response_terminating_witness :
    (split_response ['a', 'b'] 1).isSome = true ∧
      (lstrip ((['x', 'y', 'z'] : List Char).drop
        (splitPos ((['x', 'y', 'z'] : List Char).take 1) 1))).length <
        (['x', 'y', 'z'] : List Char).length :=
  ⟨(split_response_terminating ['a', 'b'] 1 (by decide)).1,
   (split_response_terminating ['a', 'b'] 1 (by decide)).2
     ['x', 'y', 'z'] (by decide)⟩

/-- C10: chunks emitted by the chunking function can be the empty string:
on the input `"    abcd"` with `maxLength = 4` the whitespace-only window
is trimmed to `""`, giving the result `["", "abcd"]` — so emitted chunks
are not guaranteed non-empty even though the input is non-empty. -/
theorem split_response_empty_chunk :
    split_response [' ', ' ', ' ', ' ', 'a', 'b', 'c', 'd'] 4 =
      some [[], ['a', 'b', 'c', 'd']] ∧
    ([] : List Char) ∈ [([] : List Char), ['a', 'b', 'c', 'd']] :=
  ⟨by decide, by decide⟩

/-! ### Migration runner (src/bot/database/migrations.py)

The database connection is modelled by the trace of operations the runner
issues against it: executed schema statements, `INSERT INTO schema_version`
rows and commits.  `run_migrations` is parameterised by the declared
migration mapping (the source's module-level `MIGRATIONS` dict, embedded
below as an association list in key order) so that the behaviour on
undeclared version numbers is visible. -/

/-- One operation issued against the database connection. -/
inductive DBEvent where
  | exec (sql : String)
  | insertVersion (v : Nat)
  | commit
deriving DecidableEq

/-- The statements of migration version 1 (src/bot/database/migrations.py
lines 15-60), in source order, with the SQL whitespace compressed. -/
def migration_1 : List String :=
  ["CREATE TABLE IF NOT EXISTS schema_version (version INTEGER PRIMARY KEY, applied_at TIMESTAMP DEFAULT CURRENT_TIMESTAMP)",
   "CREATE TABLE IF NOT EXISTS command_history (id INTEGER PRIMARY KEY AUTOINCREMENT, guild_id INTEGER, channel_id INTEGER NOT NULL, user_id INTEGER NOT NULL, command_name TEXT NOT NULL, command_args TEXT, executed_at TIMESTAMP DEFAULT CURRENT_TIMESTAMP, success INTEGER DEFAULT 1)",
   "CREATE INDEX IF NOT EXISTS idx_command_history_guild ON command_history(guild_id)",
   "CREATE INDEX IF NOT EXISTS idx_command_history_user ON command_history(user_id)",
   "CREATE TABLE IF NOT EXISTS guild_settings (guild_id INTEGER PRIMARY KEY, prefix TEXT, updated_at TIMESTAMP DEFAULT CURRENT_TIMESTAMP)",
   "CREATE TABLE IF NOT EXISTS user_data (user_id INTEGER PRIMARY KEY, data TEXT, updated_at TIMESTAMP DEFAULT CURRENT_TIMESTAMP)"]

/-- `MIGRATIONS` (src/bot/database/migrations.py lines 14-61). -/
def MIGRATIONS : List (Nat × List String) := [(1, migration_1)]

/-- The declared version numbers, in declaration order. -/
def declaredVersions (migs : List (Nat × List String)) : List Nat :=
  migs.map Prod.fst

/-- `CURRENT_VERSION = max(MIGRATIONS.keys())`
(src/bot/database/migrations.py line 63), as a fold (`max()` of the
non-empty key list). -/
def currentVersion (migs : List (Nat × List String)) : Nat :=
  (declaredVersions migs).foldr max 0

def CURRENT_VERSION : Nat := currentVersion MIGRATIONS

/-- The `for version in range(current_version + 1, CURRENT_VERSION + 1)`
loop body (src/bot/database/migrations.py lines 98-114): versions missing
from the mapping are skipped (`continue`); declared ones execute their
statements, insert a `schema_version` row equal to the version, and commit. -/
def applyFrom (migs : List (Nat × List String)) : List Nat → List DBEvent
  | [] => []
  | v :: rest =>
    match List.lookup v migs with
    | none => applyFrom migs rest
    | some stmts =>
      (stmts.map DBEvent.exec ++ [DBEvent.insertVersion v, DBEvent.commit]) ++
        applyFrom migs rest

/-- `run_migrations` (src/bot/database/migrations.py lines 85-116), given
the watermark `w` read by `get_schema_version`: early return when already
current, otherwise loop over `range(w + 1, CURRENT_VERSION + 1)`
(`List.range' (w+1) (cur - w)` is exactly that ascending interval). -/
def run_migrations (migs : List (Nat × List String)) (w : Nat) : List DBEvent :=
  if currentVersion migs ≤ w then []
  else applyFrom migs (List.range' (w + 1) (currentVersion migs - w))

/-- The `schema_version` rows inserted by a trace. -/
def appliedVersions : List DBEvent → List Nat
  | [] => []
  | DBEvent.insertVersion v :: tr => v :: appliedVersions tr
  | DBEvent.exec _ :: tr => appliedVersions tr
  | DBEvent.commit :: tr => appliedVersions tr

/-- The schema statements executed by a trace. -/
def execStatements : List DBEvent → List String
  | [] => []
  | DBEvent.exec s :: tr => s :: execStatements tr
  | DBEvent.insertVersion _ :: tr => execStatements tr
  | DBEvent.commit :: tr => execStatements tr

/-- `SELECT MAX(version) FROM schema_version` over the stored rows
(0 when there are none), the semantic reading of the watermark. -/
def watermark (rows : List Nat) : Nat :=
  rows.foldr max 0

/-- `get_schema_version` (src/bot/database/migrations.py lines 66-82) as a
function of the outcome of the version query: `Except.error` is a raised
exception, `Except.ok none` a missing row, `Except.ok (some x)` the row
with `row[0] = x` (`none` for SQL NULL).  `row[0] if row and row[0] else 0`
returns 0 whenever the row is missing, NULL or the (falsy) value 0.  The
function is total: no input makes it raise. -/
def get_schema_version (q : Except String (Option (Option Int))) : Int :=
  match q with
  | Except.error _ => 0
  | Except.ok none => 0
  | Except.ok (some none) => 0
  | Except.ok (some (some v)) => if v = 0 then 0 else v

/-! ### Helper lemmas for the migration runner -/

theorem le_foldr_max {l : List Nat} {v : Nat} (h : v ∈ l) :
    v ≤ l.foldr max 0 := by
  induction l with
  | nil => simp at h
  | cons a t ih =>
    rcases List.mem_cons.mp h with rfl | ht
    · exact le_max_left _ _
    · exact le_trans (ih ht) (le_max_right _ _)

theorem foldr_max_le {l : List Nat} {a : Nat} (h : ∀ b ∈ l, b ≤ a) :
    l.foldr max 0 ≤ a := by
  induction l with
  | nil => simp
  | cons b t ih =>
    simp only [List.foldr_cons]
    exact max_le (h b (by simp)) (ih fun x hx => h x (List.mem_cons_of_mem b hx))

theorem lookup_isSome_iff (migs : List (Nat × List String)) (v : Nat) :
    (List.lookup v migs).isSome = true ↔ v ∈ declaredVersions migs := by
  induction migs with
  | nil => simp [declaredVersions]
  | cons p t ih =>
    rcases p with ⟨k, stmts⟩
    by_cases hk : v = k
    · subst hk
      simp [List.lookup, declaredVersions]
    · have hbeq : (v == k) = false := beq_eq_false_iff_ne.mpr hk
      simp only [List.lookup, hbeq, declaredVersions, List.map_cons,
        List.mem_cons]
      rw [declaredVersions] at ih
      rw [ih]
      constructor
      · exact Or.inr
      · rintro (h | h)
        · exact absurd h hk
        · exact h

theorem appliedVersions_applyFrom (migs : List (Nat × List String)) :
    ∀ l, appliedVersions (applyFrom migs l) =
      l.filter (fun v => (List.lookup v migs).isSome) := by
  intro l
  induction l with
  | nil => rfl
  | cons v rest ih =>
    cases hv : List.lookup v migs with
    | none =>
      have : appliedVersions (applyFrom migs (v :: rest)) =
          appliedVersions (applyFrom migs rest) := by
        simp [applyFrom, hv]
      rw [this, ih, List.filter_cons]
      simp [hv]
    | some stmts =>
      have hmap : ∀ ss : List String, appliedVersions
          ((ss.map DBEvent.exec ++ [DBEvent.insertVersion v, DBEvent.commit]) ++
            applyFrom migs rest) = v :: appliedVersions (applyFrom migs rest) := by
        intro ss
        induction ss with
        | nil => rfl
        | cons s st ihs => simpa [appliedVersions] using ihs
      have : applyFrom migs (v :: rest) =
          (stmts.map DBEvent.exec ++ [DBEvent.insertVersion v, DBEvent.commit]) ++
            applyFrom migs rest := by
        simp [applyFrom, hv]
      rw [this, hmap, ih, List.filter_cons]
      simp [hv]

theorem applyFrom_eq (migs : List (Nat × List String)) :
    ∀ l, applyFrom migs l =
      ((l.filter (fun v => (List.lookup v migs).isSome)).map
        (fun v => ((List.lookup v migs).getD []).map DBEvent.exec ++
          [DBEvent.insertVersion v, DBEvent.commit])).flatten := by
  intro l
  induction l with
  | nil => rfl
  | cons v rest ih =>
    cases hv : List.lookup v migs with
    | none =>
      simp only [applyFrom, hv, List.filter_cons]
      simpa [hv] using ih
    | some stmts =>
      simp only [applyFrom, hv, List.filter_cons]
      simp only [hv, Option.isSome_some, if_pos, List.map_cons,
        List.flatten_cons, Option.getD_some]
      rw [ih]

theorem sorted_lt_eq_of_mem_iff {l1 l2 : List Nat}
    (h1 : List.Sorted (· < ·) l1) (h2 : List.Sorted (· < ·) l2)
    (hmem : ∀ a, a ∈ l1 ↔ a ∈ l2) : l1 = l2 := by
  haveI : IsAntisymm Nat (· < ·) := ⟨fun a b hab hba => ((lt_asymm hab) hba).elim⟩
  exact List.eq_of_perm_of_sorted
    ((List.perm_ext_iff_of_nodup h1.nodup h2.nodup).mpr hmem) h1 h2

theorem range'_filter_lookup_eq {migs : List (Nat × List String)}
    (hsorted : List.Sorted (· < ·) (declaredVersions migs)) (w : Nat) :
    (List.range' (w + 1) (currentVersion migs - w)).filter
        (fun v => (List.lookup v migs).isSome) =
      (declaredVersions migs).filter (fun v => decide (w < v)) := by
  apply sorted_lt_eq_of_mem_iff
  · exact List.Pairwise.sublist (List.filter_sublist _)
      (List.pairwise_lt_range' (w + 1) (currentVersion migs - w))
  · exact List.Pairwise.sublist (List.filter_sublist _) hsorted
  · intro a
    simp only [List.mem_filter, List.mem_range'_1, decide_eq_true_eq,
      lookup_isSome_iff]
    constructor
    · rintro ⟨⟨h1, -⟩, hmem⟩
      exact ⟨hmem, by omega⟩
    · rintro ⟨hmem, hlt⟩
      have hle : a ≤ currentVersion migs := le_foldr_max hmem
      exact ⟨⟨by omega, by omega⟩, hmem⟩

theorem filter_le_append_filter_gt {l : List Nat}
    (hs : List.Sorted (· < ·) l) (w : Nat) :
    l.filter (fun v => decide (v ≤ w)) ++ l.filter (fun v => decide (w < v)) =
      l := by
  induction l with
  | nil => rfl
  | cons a t ih =>
    have ha : ∀ b ∈ t, a < b := List.rel_of_sorted_cons hs
    have ht : List.Sorted (· < ·) t := hs.of_cons
    by_cases haw : a ≤ w
    · rw [List.filter_cons_of_pos (by simpa using haw),
        List.filter_cons_of_neg (by simpa using haw)]
      simpa using ih ht
    · have hwa : w < a := Nat.lt_of_not_le haw
      rw [List.filter_cons_of_neg (by simpa using haw),
        List.filter_cons_of_pos (by simpa using hwa)]
      have h1 : t.filter (fun v => decide (v ≤ w)) = [] := by
        apply List.filter_eq_nil_iff.mpr
        intro b hb
        have := ha b hb
        simp
        omega
      have h2 : t.filter (fun v => decide (w < v)) = t := by
        apply List.filter_eq_self.mpr
        intro b hb
        have := ha b hb
        simp
        omega
      rw [h1, h2]
      rfl

theorem watermark_le_current {migs : List (Nat × List String)}
    {rows0 : List Nat}
    (hrows : rows0 = (declaredVersions migs).filter
      (fun v => decide (v ≤ watermark rows0))) :
    watermark rows0 ≤ currentVersion migs := by
  show rows0.foldr max 0 ≤ currentVersion migs
  apply foldr_max_le
  intro b hb
  rw [hrows] at hb
  exact le_foldr_max (List.mem_filter.mp hb).1

theorem migrations_applied_eq (migs : List (Nat × List String))
    (rows0 : List Nat)
    (hsorted : List.Sorted (· < ·) (declaredVersions migs))
    (hrows : rows0 = (declaredVersions migs).filter
      (fun v => decide (v ≤ watermark rows0))) :
    appliedVersions (run_migrations migs (watermark rows0)) =
      (declaredVersions migs).filter
        (fun v => decide (watermark rows0 < v)) := by
  have hwle := watermark_le_current hrows
  unfold run_migrations
  by_cases hcur : currentVersion migs ≤ watermark rows0
  · rw [if_pos hcur]
    have hcur2 : (declaredVersions migs).foldr max 0 ≤ watermark rows0 := hcur
    have hnil : appliedVersions ([] : List DBEvent) = [] := rfl
    rw [hnil]
    symm
    apply List.filter_eq_nil_iff.mpr
    intro v hv
    have hvc := le_foldr_max hv
    simp
    omega
  · rw [if_neg hcur]
    rw [appliedVersions_applyFrom, range'_filter_lookup_eq hsorted]

theorem migrations_trace_eq (migs : List (Nat × List String))
    (rows0 : List Nat)
    (hsorted : List.Sorted (· < ·) (declaredVersions migs))
    (hrows : rows0 = (declaredVersions migs).filter
      (fun v => decide (v ≤ watermark rows0))) :
    run_migrations migs (watermark rows0) =
      (((declaredVersions migs).filter
          (fun v => decide (watermark rows0 < v))).map
        (fun v => ((List.lookup v migs).getD []).map DBEvent.exec ++
          [DBEvent.insertVersion v, DBEvent.commit])).flatten := by
  have hwle := watermark_le_current hrows
  unfold run_migrations
  by_cases hcur : currentVersion migs ≤ watermark rows0
  · rw [if_pos hcur]
    have hcur2 : (declaredVersions migs).foldr max 0 ≤ watermark rows0 := hcur
    have hfil : (declaredVersions migs).filter
        (fun v => decide (watermark rows0 < v)) = [] := by
      apply List.filter_eq_nil_iff.mpr
      intro v hv
      have hvc := le_foldr_max hv
      simp
      omega
    rw [hfil]
    rfl
  · rw [if_neg hcur]
    rw [applyFrom_eq, range'_filter_lookup_eq hsorted]

theorem migrations_rows_eq (migs : List (Nat × List String))
    (rows0 : List Nat)
    (hsorted : List.Sorted (· < ·) (declaredVersions migs))
    (hrows : rows0 = (declaredVersions migs).filter
      (fun v => decide (v ≤ watermark rows0))) :
    rows0 ++ appliedVersions (run_migrations migs (watermark rows0)) =
      declaredVersions migs := by
  rw [migrations_applied_eq migs rows0 hsorted hrows]
  nth_rewrite 1 [hrows]
  exact filter_le_append_filter_gt hsorted _

theorem migrations_watermark_eq (migs : List (Nat × List String))
    (rows0 : List Nat)
    (hsorted : List.Sorted (· < ·) (declaredVersions migs))
    (hrows : rows0 = (declaredVersions migs).filter
      (fun v => decide (v ≤ watermark rows0))) :
    watermark (rows0 ++ appliedVersions (run_migrations migs (watermark rows0))) =
      currentVersion migs := by
  rw [migrations_rows_eq migs rows0 hsorted hrows]
  rfl

theorem run_migrations_of_current_le {migs : List (Nat × List String)}
    {w : Nat} (h : currentVersion migs ≤ w) : run_migrations migs w = [] := by
  unfold run_migrations
  rw [if_pos h]

/-! ### Claim theorems for the migration runner -/

/-- C2: invoked with the watermark `w` read from `schema_version` rows that
form a contiguous prefix of the (ascending) declared sequence, the runner
applies exactly the declared versions strictly greater than `w`, in
ascending order, skipping undeclared version numbers; the issued trace is,
for each applied version in order, its statements followed by one watermark
row equal to that version and one commit; after it returns the applied set
is the whole declared sequence (a contiguous prefix — no gaps, no
re-application) and the recorded watermark equals the highest declared
version. -/
theorem run_migrations_applies_pending (migs : List (Nat × List String))
    (rows0 : List Nat)
    (hsorted : List.Sorted (· < ·) (declaredVersions migs))
    (hrows : rows0 = (declaredVersions migs).filter
      (fun v => decide (v ≤ watermark rows0))) :
    appliedVersions (run_migrations migs (watermark rows0)) =
        (declaredVersions migs).filter
          (fun v => decide (watermark rows0 < v)) ∧
      run_migrations migs (watermark rows0) =
        (((declaredVersions migs).filter
            (fun v => decide (watermark rows0 < v))).map
          (fun v => ((List.lookup v migs).getD []).map DBEvent.exec ++
            [DBEvent.insertVersion v, DBEvent.commit])).flatten ∧
      rows0 ++ appliedVersions (run_migrations migs (watermark rows0)) =
        declaredVersions migs ∧
      watermark (rows0 ++
          appliedVersions (run_migrations migs (watermark rows0))) =
        currentVersion migs :=
  ⟨migrations_applied_eq migs rows0 hsorted hrows,
   migrations_trace_eq migs rows0 hsorted hrows,
   migrations_rows_eq migs rows0 hsorted hrows,
   migrations_watermark_eq migs rows0 hsorted hrows⟩

theorem run_migrations_applies_pending_witness :
    appliedVersions (run_migrations MIGRATIONS (watermark [])) =
        (declaredVersions MIGRATIONS).filter
          (fun v => decide (watermark [] < v)) ∧
      watermark ([] ++
          appliedVersions (run_migrations MIGRATIONS (watermark []))) =
        currentVersion MIGRATIONS :=
  ⟨(run_migrations_applies_pending MIGRATIONS []
      (by rw [show declaredVersions MIGRATIONS = [1] from rfl]
          exact List.sorted_singleton 1) rfl).1,
   (run_migrations_applies_pending MIGRATIONS []
      (by rw [show declaredVersions MIGRATIONS = [1] from rfl]
          exact List.sorted_singleton 1) rfl).2.2.2⟩

/-- C6: running the migration runner when the recorded watermark is already
at (or above) the highest declared version is a no-op — empty trace, so
zero schema statements and no watermark rows; in particular running it a
second time right after a (coherent-state) run changes nothing, which makes
it safe to call on every process start. -/
theorem run_migrations_idempotent (migs : List (Nat × List String))
    (rows0 : List Nat)
    (hsorted : List.Sorted (· < ·) (declaredVersions migs))
    (hrows : rows0 = (declaredVersions migs).filter
      (fun v => decide (v ≤ watermark rows0))) :
    (∀ w, currentVersion migs ≤ w →
      run_migrations migs w = [] ∧
        execStatements (run_migrations migs w) = [] ∧
        appliedVersions (run_migrations migs w) = []) ∧
      run_migrations migs
        (watermark (rows0 ++
          appliedVersions (run_migrations migs (watermark rows0)))) = [] := by
  constructor
  · intro w hw
    have h := run_migrations_of_current_le hw
    refine ⟨h, ?_, ?_⟩
    · rw [h]
      rfl
    · rw [h]
      rfl
  · rw [migrations_watermark_eq migs rows0 hsorted hrows]
    exact run_migrations_of_current_le (le_refl _)

theorem run_migrations_idempotent_witness :
    run_migrations MIGRATIONS 5 = [] ∧
      run_migrations MIGRATIONS
        (watermark ([] ++
          appliedVersions (run_migrations MIGRATIONS (watermark [])))) = [] :=
  ⟨((run_migrations_idempotent MIGRATIONS []
      (by rw [show declaredVersions MIGRATIONS = [1] from rfl]
          exact List.sorted_singleton 1) rfl).1 5 (by decide)).1,
   (run_migrations_idempotent MIGRATIONS []
      (by rw [show declaredVersions MIGRATIONS = [1] from rfl]
          exact List.sorted_singleton 1) rfl).2⟩

/-- C7: reading the schema watermark never raises — the embedding is a
total function of the version-query outcome — and every raised exception
(the missing tracking table on first run, but equally genuine storage
errors such as permission or corruption failures), as well as a missing or
NULL row, yields the value 0. -/
theorem get_schema_version_exception_zero :
    (∀ e : String, get_schema_version (Except.error e) = 0) ∧
      get_schema_version (Except.ok none) = 0 ∧
      get_schema_version (Except.ok (some none)) = 0 :=
  ⟨fun _ => rfl, rfl, rfl⟩

/-! ### Purge batching (src/bot/cogs/moderation.py lines 97-126)

The channel is modelled by the number `n` of deletable messages it holds:
`channel.purge(limit=100)` deletes and returns `min 100 n` of them.  A
failing upstream call (`discord.HTTPException`) is modelled by `fail_at =
some k`: the k-th delete call (1-based) raises instead of returning. -/

/-- Outcome of the bulk-delete loop: number of delete calls issued, the
reported `deleted_total`, the sizes of the batches that returned, and
whether an upstream failure ended the loop. -/
structure PurgeResult where
  calls : Nat
  total : Nat
  batches : List Nat
  failed : Bool
deriving DecidableEq

/-- The `while True:` loop of `Moderation.purge`: accumulate
`deleted_total += len(deleted)`, stop when a batch returns fewer than 100
items; on `discord.HTTPException` report the total accumulated so far and
return without retrying. -/
def purgeLoop (fail_at : Option Nat) (call n total : Nat)
    (batches : List Nat) : PurgeResult :=
  if fail_at = some call then
    ⟨call, total, batches, true⟩
  else
    if _h : min 100 n < 100 then
      ⟨call, total + min 100 n, batches ++ [min 100 n], false⟩
    else
      purgeLoop fail_at (call + 1) (n - 100) (total + min 100 n)
        (batches ++ [min 100 n])
termination_by n
decreasing_by omega

/-- The bulk-delete phase of the `/purge` command on a channel with `n`
deletable messages. -/
def Moderation_purge_loop (n : Nat) (fail_at : Option Nat) : PurgeResult :=
  purgeLoop fail_at 1 n 0 []

theorem purgeLoop_none : ∀ n call total batches,
    purgeLoop none call n total batches =
      ⟨call + n / 100, total + n,
        batches ++ (List.replicate (n / 100) 100 ++ [n % 100]), false⟩ := by
  intro n
  induction n using Nat.strong_induction_on with
  | _ n ih =>
    intro call total batches
    unfold purgeLoop
    rw [if_neg (by simp)]
    by_cases hn : n < 100
    · have hmin : min 100 n = n := by omega
      rw [dif_pos (by omega)]
      have hdiv : n / 100 = 0 := Nat.div_eq_of_lt hn
      have hmod : n % 100 = n := Nat.mod_eq_of_lt hn
      rw [hmin, hdiv, hmod]
      congr 1
    · have hmin : min 100 n = 100 := by omega
      rw [dif_neg (by omega)]
      rw [ih (n - 100) (by omega) (call + 1) (total + min 100 n)
        (batches ++ [min 100 n])]
      have hdiv : n / 100 = (n - 100) / 100 + 1 := by omega
      have hmod : n % 100 = (n - 100) % 100 := by omega
      rw [hmin, hdiv, hmod, List.replicate_succ]
      congr 1
      all_goals first | omega | simp

theorem purgeLoop_fail : ∀ j n call total batches, 100 * j ≤ n →
    purgeLoop (some (call + j)) call n total batches =
      ⟨call + j, total + 100 * j, batches ++ List.replicate j 100, true⟩ := by
  intro j
  induction j with
  | zero =>
    intro n call total batches hn
    unfold purgeLoop
    rw [if_pos (by simp)]
    simp
  | succ j ih =>
    intro n call total batches hn
    unfold purgeLoop
    rw [if_neg (by simp)]
    have hmin : min 100 n = 100 := by omega
    rw [dif_neg (by omega)]
    have hcall : call + (j + 1) = (call + 1) + j := by omega
    rw [hcall, ih (n - 100) (call + 1) (total + min 100 n)
      (batches ++ [min 100 n]) (by omega)]
    rw [hmin, List.replicate_succ]
    congr 1
    all_goals first | omega | simp

/-! ### Claim theorem for purge batching -/

/-- C3: after confirmation, the bulk delete proceeds in fixed batches of
100, accumulating a running deleted-count; on a channel with `n` deletable
messages and no failure it deletes all `n` in `n / 100 + 1` calls (the last
call returns fewer than 100 items, stopping the loop); with exactly 250
messages it issues 3 calls returning 100, 100 and 50 and reports 250; if
the k-th call fails mid-run the loop issues exactly `k` calls (no retry)
and the reported total is the sum of the `k - 1` successfully completed
full batches only; with 250 messages and a failure on call 3 the reported
total is 200. -/
theorem purge_batching_spec (n k : Nat) (hk : 1 ≤ k)
    (hn : 100 * (k - 1) ≤ n) :
    (Moderation_purge_loop n none).total = n ∧
    (Moderation_purge_loop n none).calls = n / 100 + 1 ∧
    (Moderation_purge_loop n none).failed = false ∧
    Moderation_purge_loop 250 none = ⟨3, 250, [100, 100, 50], false⟩ ∧
    Moderation_purge_loop n (some k) =
      ⟨k, 100 * (k - 1), List.replicate (k - 1) 100, true⟩ ∧
    (Moderation_purge_loop n (some k)).total =
      ((Moderation_purge_loop n (some k)).batches).sum ∧
    Moderation_purge_loop 250 (some 3) = ⟨3, 200, [100, 100], true⟩ := by
  have hfail : Moderation_purge_loop n (some k) =
      ⟨k, 100 * (k - 1), List.replicate (k - 1) 100, true⟩ := by
    unfold Moderation_purge_loop
    have hk1 : k = 1 + (k - 1) := by omega
    rw [hk1, purgeLoop_fail (k - 1) n 1 0 [] (by omega)]
    simp
  refine ⟨?_, ?_, ?_, ?_, hfail, ?_, ?_⟩
  · rw [Moderation_purge_loop, purgeLoop_none]
    simp
  · rw [Moderation_purge_loop, purgeLoop_none]
    simp [Nat.add_comm]
  · rw [Moderation_purge_loop, purgeLoop_none]
  · rw [Moderation_purge_loop, purgeLoop_none]
    decide
  · rw [hfail]
    simp [List.sum_replicate, Nat.mul_comm]
  · rw [Moderation_purge_loop]
    have h3 : (3 : Nat) = 1 + 2 := by omega
    rw [h3, purgeLoop_fail 2 250 1 0 [] (by omega)]
    rfl

theorem purge_batching_spec_witness :
    Moderation_purge_loop 250 none = ⟨3, 250, [100, 100, 50], false⟩ ∧
      Moderation_purge_loop 250 (some 3) = ⟨3, 200, [100, 100], true⟩ :=
  ⟨(purge_batching_spec 250 3 (by decide) (by decide)).2.2.2.1,
   (purge_batching_spec 250 3 (by decide) (by decide)).2.2.2.2.2.2⟩

/-! ### Confirmation workflow (src/bot/cogs/moderation.py lines 12-95) -/

/-- The state held by `ConfirmPurgeView` (src/bot/cogs/moderation.py lines
12-18): the authorizing user, the tri-state outcome field
(`confirmed : bool | None`, `None` meaning no authorized choice yet), and
whether the view has been stopped (resolved). -/
structure ConfirmPurgeView where
  author_id : Nat
  confirmed : Option Bool
  stopped : Bool
deriving DecidableEq

/-- `ConfirmPurgeView(author_id)`: pending, not yet resolved. -/
def ConfirmPurgeView.new (author_id : Nat) : ConfirmPurgeView :=
  ⟨author_id, none, false⟩

/-- The `confirm` / `cancel` button callbacks (src/bot/cogs/moderation.py
lines 20-44): a press by anyone but the command author is answered with an
ephemeral notice and changes no state; a press by the author records the
choice and stops (resolves) the view. -/
def buttonPress (v : ConfirmPurgeView) (user_id : Nat)
    (is_confirm : Bool) : ConfirmPurgeView :=
  if user_id ≠ v.author_id then v
  else { v with confirmed := some is_confirm, stopped := true }

/-- An event delivered to the confirmation session: a button press or the
expiry-timer firing (the 30-second `timeout=30` deadline). -/
inductive ViewEvent where
  | press (user_id : Nat) (is_confirm : Bool)
  | timerFire
deriving DecidableEq

/-- Modelled from the spec: the platform UI framework's view dispatch is
not part of src/ — per §4.4/§5 a resolved session ignores every later
event (the first resolution, whichever source, wins), `stop()` cancels the
expiry timer, and expiry resolves the session exactly once.  The press
branch is `buttonPress` from src; the timer branch stops the view leaving
`confirmed = None`, which the caller reads as the timeout. -/
def sessionStep (v : ConfirmPurgeView) (e : ViewEvent) : ConfirmPurgeView :=
  if v.stopped then v
  else
    match e with
    | ViewEvent.press uid c => buttonPress v uid c
    | ViewEvent.timerFire => { v with stopped := true }

/-- Deliver a sequence of events (in time order) to a session. -/
def runSession (v : ConfirmPurgeView) (events : List ViewEvent) :
    ConfirmPurgeView :=
  events.foldl sessionStep v

/-- The spec's session states: `Pending → {Confirmed, Declined, TimedOut}`. -/
inductive Outcome where
  | pending
  | confirmedO
  | declinedO
  | timedOut
deriving DecidableEq

/-- Reading a session as a spec state: unresolved is `Pending`; a resolved
session is `Confirmed` / `Declined` by the recorded choice, `TimedOut` when
it resolved with no authorized choice. -/
def outcome (v : ConfirmPurgeView) : Outcome :=
  if v.stopped = false then Outcome.pending
  else
    match v.confirmed with
    | some true => Outcome.confirmedO
    | some false => Outcome.declinedO
    | none => Outcome.timedOut

/-- A user-visible action taken by `Moderation.purge` after the wait. -/
inductive PurgeAction where
  | editPrompt (msg : String)
  | runBulkDelete
deriving DecidableEq

/-- What `Moderation.purge` does once `view.wait()` returns
(src/bot/cogs/moderation.py lines 81-101): on timeout
(`view.confirmed is None`) and on decline (`False`) it edits the original
prompt to a cancellation notice and performs no purge; on confirm it edits
the prompt and proceeds to the bulk delete. -/
def purgeAfterWait (confirmed : Option Bool) : List PurgeAction :=
  match confirmed with
  | none => [PurgeAction.editPrompt "Purge cancelled (timed out)."]
  | some false => [PurgeAction.editPrompt "Purge cancelled."]
  | some true =>
    [PurgeAction.editPrompt "Purging messages...", PurgeAction.runBulkDelete]

/-- C4: the confirmation session resolves exactly once and the first
resolution wins: the author's confirm press resolves a fresh session to
`Confirmed` and a later timer fire is a no-op; with no authorized choice
the timer resolves it to `TimedOut` and no later event ever changes it — in
general a resolved session absorbs every event; on `Declined` and on
`TimedOut` the caller edits the original prompt to a cancellation notice
and performs no purge. -/
theorem confirmation_session_spec (a : Nat) (c : Option Bool) :
    (runSession (ConfirmPurgeView.new a)
        [ViewEvent.press a true, ViewEvent.timerFire] =
        runSession (ConfirmPurgeView.new a) [ViewEvent.press a true] ∧
      outcome (runSession (ConfirmPurgeView.new a)
        [ViewEvent.press a true]) = Outcome.confirmedO) ∧
    (outcome (runSession (ConfirmPurgeView.new a) [ViewEvent.timerFire]) =
        Outcome.timedOut ∧
      ∀ e, sessionStep
          (runSession (ConfirmPurgeView.new a) [ViewEvent.timerFire]) e =
        runSession (ConfirmPurgeView.new a) [ViewEvent.timerFire]) ∧
    (∀ e, sessionStep ⟨a, c, true⟩ e = ⟨a, c, true⟩) ∧
    purgeAfterWait none =
      [PurgeAction.editPrompt "Purge cancelled (timed out)."] ∧
    purgeAfterWait (some false) =
      [PurgeAction.editPrompt "Purge cancelled."] ∧
    PurgeAction.runBulkDelete ∉ purgeAfterWait none ∧
    PurgeAction.runBulkDelete ∉ purgeAfterWait (some false) := by
  have hpress : runSession (ConfirmPurgeView.new a)
      [ViewEvent.press a true] = ⟨a, some true, true⟩ := by
    simp [runSession, sessionStep, buttonPress, ConfirmPurgeView.new]
  refine ⟨⟨?_, ?_⟩, ⟨rfl, fun e => rfl⟩, fun e => rfl, rfl, rfl,
    by decide, by decide⟩
  · show sessionStep (sessionStep (ConfirmPurgeView.new a)
        (ViewEvent.press a true)) ViewEvent.timerFire =
      sessionStep (ConfirmPurgeView.new a) (ViewEvent.press a true)
    have h1 : sessionStep (ConfirmPurgeView.new a) (ViewEvent.press a true) =
        ⟨a, some true, true⟩ := hpress
    rw [h1]
    rfl
  · rw [hpress]
    rfl

theorem confirmation_session_spec_witness :
    sessionStep ⟨7, some true, true⟩ ViewEvent.timerFire =
        ⟨7, some true, true⟩ ∧
      PurgeAction.runBulkDelete ∉ purgeAfterWait none :=
  ⟨(confirmation_session_spec 7 (some true)).2.2.1 ViewEvent.timerFire,
   (confirmation_session_spec 7 (some true)).2.2.2.2.2.1⟩

/-! ### History logging hook (src/bot/cogs/general.py, models.py) -/

/-- `log_command` (src/bot/database/models.py lines 44-73), as a function
of the outcome of its two storage steps (the `INSERT INTO command_history`
execute, then the commit): the function contains no exception handling, so
a failure of either step propagates to the caller. -/
def log_command (insert commitStep : Except String Unit) :
    Except String Unit :=
  match insert with
  | Except.error e => Except.error e
  | Except.ok _ => commitStep

/-- `General.on_app_command_completion` (src/bot/cogs/general.py lines
27-52): returns silently when the bot has no database
(`getattr(self.bot, "db", None) is None`), otherwise performs the history
write via `log_command`; the listener body contains no try/except, so a
storage failure propagates out of it. -/
def on_app_command_completion
    (db : Option (Except String Unit × Except String Unit)) :
    Except String Unit :=
  match db with
  | none => Except.ok ()
  | some (ins, cm) => log_command ins cm

/-- An observable event of a completed structured interaction. -/
inductive HookEvent where
  | responseSent
  | hookReturned
  | hookRaised (e : String)
deriving DecidableEq

/-- Modelled from the spec: the platform dispatches the completion listener
only after the command has produced its user-visible response (§4.5: a
post-execution hook, recording successful completions), so the response
event precedes the hook's outcome in the flow, whatever that outcome is. -/
def appCommandFlow
    (db : Option (Except String Unit × Except String Unit)) :
    List HookEvent :=
  HookEvent.responseSent ::
    (match on_app_command_completion db with
     | Except.ok _ => [HookEvent.hookReturned]
     | Except.error e => [HookEvent.hookRaised e])

/-- C8, counterexample to the claim as stated: neither
`on_app_command_completion` nor `log_command` contains any exception
handling, so a failing storage write propagates out of the hook (to the
platform's listener dispatch) instead of being swallowed and logged at
warning level by the bot code. -/
theorem history_hook_not_swallowed :
    on_app_command_completion
        (some (Except.error "database is locked", Except.ok ())) =
        Except.error "database is locked" ∧
      on_app_command_completion
        (some (Except.error "database is locked", Except.ok ())) ≠
        Except.ok () :=
  ⟨rfl, fun h => Except.noConfusion h⟩

/-- C8 (amended): the post-execution history hook runs only after the
command's user-visible response has been sent, so that response is
unaffected by the storage outcome — the flow always begins with the
response event, for every storage outcome including failures; the hook
itself, however, does not swallow the failure: it propagates it to the
platform's listener boundary (no warning-level handling in the bot code). -/
theorem history_logging_response_unaffected
    (db : Option (Except String Unit × Except String Unit)) :
    (appCommandFlow db).head? = some HookEvent.responseSent ∧
      HookEvent.responseSent ∈ appCommandFlow db ∧
      ∀ e : String,
        on_app_command_completion (some (Except.error e, Except.ok ())) =
          Except.error e :=
  ⟨rfl, List.mem_cons_self _ _, fun _ => rfl⟩

end InfiBot
